import Mathlib

/-!
Verification of the gitsy/wyag object store against its specification.

Byte strings (Python `bytes`, and ASCII `str` values) are modelled as
`List Nat`.  Python's forward-only cursor (`start` indices into an
immutable buffer, advanced monotonically) is represented by the
remaining suffix of the buffer; recursive scans carry explicit fuel so
that every definition is structural and kernel-evaluable.  zlib
compression is modelled as the identity on stored bytes: every claim
below reads and writes through the compress/decompress pair, so only
the decompressed content is observable.
-/

namespace Gitsy


abbrev Bytes := List Nat

/-- Decode an ASCII string literal into its byte list. -/
def bytesOfString (s : String) : Bytes :=
  s.data.map Char.toNat

/-- `bytes.find(b, start)` relative to the current suffix: index of the
first occurrence of byte `b`, if any. -/
def findByte (b : Nat) : Bytes → Option Nat
  | [] => none
  | c :: rest => if c = b then some 0 else (findByte b rest).map (· + 1)

/-! ## Message codec (src/wyag/models/message.py)

`Message._parse` scans the buffer with `data.find(b" ", start)` /
`data.find(b"\n", start)`; continuation lines (LF followed by SP) are
collected into the raw value, which is then unfolded with
`value.replace(b"\n ", b"\n")`.  `Message.write` refolds each value via
`value.replace(b"\n", b"\n ")` and appends `b"\n" + text + b"\n"`.
The Python header dict (`MessageHeaders`, insertion-ordered, one list
of values per key) is modelled as an association list. -/

/-- `value.replace(b"\n ", b"\n")`: Python `bytes.replace`, scanning
left to right over non-overlapping occurrences. -/
def unfoldValue : Bytes → Bytes
  | [] => []
  | 10 :: 32 :: rest => 10 :: unfoldValue rest
  | c :: rest => c :: unfoldValue rest

/-- `value.replace(b"\n", b"\n ")`. -/
def foldValue : Bytes → Bytes
  | [] => []
  | c :: rest => if c = 10 then 10 :: 32 :: foldValue rest else c :: foldValue rest

/-- The value-collection loop of `Message._parse`: scan for the first LF
not immediately followed by SP.  Returns the raw value (up to that LF,
with `LF SP` pairs kept) and the remainder after the LF.  On a buffer
with no such terminator (malformed input, where Python indexes out of
bounds or slices nonsense) the scan returns the exhausted remainder;
all theorems below stay inside well-formed inputs. -/
def scanValue : Bytes → Bytes × Bytes
  | [] => ([], [])
  | c :: rest =>
    if c = 10 then
      match rest with
      | 32 :: rest2 =>
        let p := scanValue rest2
        (10 :: 32 :: p.1, p.2)
      | _ => ([], rest)
    else
      let p := scanValue rest
      (c :: p.1, p.2)

/-- The insertion-ordered Python dict `MessageHeaders`: keys in first
occurrence order, each holding its list of values. -/
abbrev Headers := List (Bytes × List Bytes)

/-- `headers[key].append(value)` / `headers[key] = [value]`. -/
def addHeader : Headers → Bytes → Bytes → Headers
  | [], k, v => [(k, [v])]
  | (k', vs) :: rest, k, v =>
    if k' = k then (k', vs ++ [v]) :: rest
    else (k', vs) :: addHeader rest k v

/-- A parsed `Message`: headers plus the text payload. -/
structure Message where
  headers : Headers
  text : Bytes
  deriving DecidableEq

namespace Message

/-- `Message._parse(data, start, headers)`, the cursor given as the
remaining suffix; fuel bounds the number of header lines consumed
(strictly more fuel than lines is always supplied). -/
def parseFuel : Nat → Bytes → Headers → Message
  | 0, data, hs => ⟨hs, data.drop 1⟩
  | fuel + 1, data, hs =>
    match findByte 32 data, findByte 10 data with
    | none, _ => ⟨hs, data.drop 1⟩
    | some _, none => ⟨hs, data.drop 1⟩
    | some s, some n =>
      if n < s then ⟨hs, data.drop 1⟩
      else
        let key := data.take s
        let sv := scanValue (data.drop (s + 1))
        parseFuel fuel sv.2 (addHeader hs key (unfoldValue sv.1))

/-- `Message.parse(data)`. -/
def parse (data : Bytes) : Message :=
  parseFuel (data.length + 1) data []

/-- One header line as emitted by `Message.write`:
`key + b" " + value.replace(b"\n", b"\n ") + b"\n"`. -/
def writeLine (k v : Bytes) : Bytes :=
  k ++ [32] ++ foldValue v ++ [10]

/-- The header part of `Message.write`: for each key in insertion
order, each of its values on its own (folded) line. -/
def writeHeaders : Headers → Bytes
  | [] => []
  | (k, vs) :: rest => (vs.map (writeLine k)).foldr (· ++ ·) [] ++ writeHeaders rest

/-- `Message.write()`: headers, blank line, text, and a final LF. -/
def write (m : Message) : Bytes :=
  writeHeaders m.headers ++ 10 :: (m.text ++ [10])

end Message

/-! Generative description of the well-formed message wire format of
the claim: header lines `key SP value LF` with folded continuation
lines (every LF inside the on-wire value is followed by a single SP,
which is what `foldValue` produces), then a blank line, then the text
payload. -/

/-- Render a list of (key, decoded value) pairs as consecutive header
lines. -/
def renderLines : List (Bytes × Bytes) → Bytes
  | [] => []
  | (k, v) :: rest => Message.writeLine k v ++ renderLines rest

/-- A well-formed message byte string: header lines, blank line, text. -/
def renderMessage (pairs : List (Bytes × Bytes)) (text : Bytes) : Bytes :=
  renderLines pairs ++ 10 :: text

/-- One (key, values) group rendered as adjacent header lines. -/
def flattenGrouped : Headers → List (Bytes × Bytes)
  | [] => []
  | (k, vs) :: rest => vs.map (fun v => (k, v)) ++ flattenGrouped rest

/-- A header key is well-formed: nonempty, no SP, no LF. -/
def GoodKey (k : Bytes) : Prop := k ≠ [] ∧ 32 ∉ k ∧ 10 ∉ k

instance : DecidablePred GoodKey := fun k => by
  unfold GoodKey; infer_instance

/-! ## SHA-1 (the `hashlib.sha1(...).hexdigest()` call of `write_object`)

A byte-level implementation of FIPS 180 SHA-1 over `List Nat`, with
32-bit words as `Nat` reduced modulo `2 ^ 32`. -/

/-- `2 ^ 32`. -/
def M32 : Nat := 4294967296

/-- Rotate a 32-bit word left by `n`. -/
def rotl (n x : Nat) : Nat := ((x <<< n) % M32) ||| (x >>> (32 - n))

/-- Round constants. -/
def sha1K (i : Nat) : Nat :=
  if i < 20 then 1518500249
  else if i < 40 then 1859775393
  else if i < 60 then 2400959708
  else 3395469782

/-- Round functions (Ch, Parity, Maj, Parity). -/
def sha1F (i b c d : Nat) : Nat :=
  if i < 20 then (b &&& c) ||| ((b ^^^ 4294967295) &&& d)
  else if i < 40 then b ^^^ c ^^^ d
  else if i < 60 then (b &&& c) ||| (b &&& d) ||| (c &&& d)
  else b ^^^ c ^^^ d

/-- Big-endian 32-bit words from bytes. -/
def toWords : Bytes → List Nat
  | b0 :: b1 :: b2 :: b3 :: rest =>
    (((b0 * 256 + b1) * 256 + b2) * 256 + b3) :: toWords rest
  | _ => []

/-- Extend the 16-word schedule to 80 words; `win` holds the previous
16 words, newest first. -/
def sha1SchedExt : Nat → List Nat → List Nat → List Nat
  | 0, _, acc => acc.reverse
  | fuel + 1, win, acc =>
    let nw := rotl 1 (win.getD 2 0 ^^^ win.getD 7 0 ^^^ win.getD 13 0 ^^^ win.getD 15 0)
    sha1SchedExt fuel (nw :: win.take 15) (nw :: acc)

/-- The 80-word message schedule of one block. -/
def sha1Schedule (w16 : List Nat) : List Nat :=
  w16 ++ sha1SchedExt 64 w16.reverse []

/-- One compression round. -/
def sha1Round (st : Nat × Nat × Nat × Nat × Nat) (iw : Nat × Nat) :
    Nat × Nat × Nat × Nat × Nat :=
  let (a, b, c, d, e) := st
  let (i, w) := iw
  let t := (rotl 5 a + sha1F i b c d + e + sha1K i + w) % M32
  (t, a, rotl 30 b, c, d)

/-- Compress one 64-byte block into the running digest state. -/
def sha1Block (h : Nat × Nat × Nat × Nat × Nat) (block : Bytes) :
    Nat × Nat × Nat × Nat × Nat :=
  let sched := sha1Schedule (toWords block)
  let (a, b, c, d, e) := sched.enum.foldl sha1Round h
  ((h.1 + a) % M32, (h.2.1 + b) % M32, (h.2.2.1 + c) % M32,
    (h.2.2.2.1 + d) % M32, (h.2.2.2.2 + e) % M32)

/-- The bit length as eight big-endian bytes. -/
def lenBytes8 (n : Nat) : Bytes :=
  [(n >>> 56) % 256, (n >>> 48) % 256, (n >>> 40) % 256, (n >>> 32) % 256,
   (n >>> 24) % 256, (n >>> 16) % 256, (n >>> 8) % 256, n % 256]

/-- FIPS 180 padding: `0x80`, zeros to 56 mod 64, 64-bit bit count. -/
def sha1Pad (msg : Bytes) : Bytes :=
  msg ++ 128 :: (List.replicate ((119 - msg.length % 64) % 64) 0 ++ lenBytes8 (msg.length * 8))

/-- Split into 64-byte blocks (fuel bounds the number of blocks). -/
def chunks64 : Nat → Bytes → List Bytes
  | 0, _ => []
  | _ + 1, [] => []
  | fuel + 1, l => l.take 64 :: chunks64 fuel (l.drop 64)

/-- The 20-byte SHA-1 digest of a byte string. -/
def sha1 (msg : Bytes) : Bytes :=
  let blocks := chunks64 (msg.length + 1) (sha1Pad msg)
  let h := blocks.foldl sha1Block (1732584193, 4023233417, 2562383102, 271733878, 3285377520)
  [h.1, h.2.1, h.2.2.1, h.2.2.2.1, h.2.2.2.2].foldr
    (fun w acc => [(w >>> 24) % 256, (w >>> 16) % 256, (w >>> 8) % 256, w % 256] ++ acc) []

/-- A lowercase hex digit. -/
def hexDigit (n : Nat) : Nat := if n < 10 then 48 + n else 87 + n

/-- Lowercase hex encoding of a byte string. -/
def hexEncode (bs : Bytes) : Bytes :=
  bs.foldr (fun b acc => hexDigit (b / 16) :: hexDigit (b % 16) :: acc) []

/-- `hashlib.sha1(raw_data).hexdigest()`. -/
def sha1Hex (msg : Bytes) : Bytes := hexEncode (sha1 msg)

/-- `str(n)` for a natural number, as ASCII digit bytes. -/
def decDigitsAux : Nat → Nat → Bytes
  | 0, _ => []
  | fuel + 1, n => if n < 10 then [48 + n] else decDigitsAux fuel (n / 10) ++ [48 + n % 10]

/-- `str(len(obj_data)).encode()`. -/
def decDigits (n : Nat) : Bytes := decDigitsAux (n + 1) n

/-! ## Repository model and object store (src/gitsy/services/objects.py)

The object database is a map from the full hash (the 40 hex characters
recombined from the fan-out path `objects/<sha[0:2]>/<sha[2:]>`) to the
zlib-DEcompressed file content; ref files (`HEAD`, `refs/...`) are a
map from the path relative to the metadata directory to their text
content. -/

structure Repository where
  objects : List (Bytes × Bytes)
  files : List (Bytes × Bytes)
  deriving DecidableEq

/-- Look up a stored object's decompressed bytes by full hash. -/
def Repository.lookupObject (repo : Repository) (sha : Bytes) : Option Bytes :=
  (repo.objects.find? (fun p => p.1 == sha)).map (·.2)

/-- Write (or overwrite) an object file. -/
def Repository.storeObject (repo : Repository) (sha data : Bytes) : Repository :=
  if (repo.objects.find? (fun p => p.1 == sha)).isSome then
    { repo with objects := repo.objects.map (fun p => if p.1 == sha then (sha, data) else p) }
  else
    { repo with objects := repo.objects ++ [(sha, data)] }

/-- A Git blob (src/wyag/models/objects.py `Blob`): `deserialize`
stores the raw bytes, `serialize`/`write` returns them unchanged.
`Blob` is the only object kind whose serializer is fully implemented
under src, and the kind the hashing claim exercises. -/
structure Blob where
  blob_data : Bytes
  deriving DecidableEq

def Blob.write (b : Blob) : Bytes := b.blob_data

def Blob.type_ : Bytes := bytesOfString "blob"

/-- `write_object(repo, obj, write)` for a blob: serialize, frame as
`b"blob " + str(len) + b"\x00" + data`, SHA-1 the framed bytes, store
the (zlib-modelled-as-identity) framed bytes when `write` is set, and
return the hex hash either way. -/
def write_object (repo : Repository) (obj : Blob) (write : Bool := true) :
    Repository × Bytes :=
  let obj_data := obj.write
  let raw_data := Blob.type_ ++ [32] ++ decDigits obj_data.length ++ [0] ++ obj_data
  let sha := sha1Hex raw_data
  if write then (repo.storeObject sha raw_data, sha) else (repo, sha)

/-! ## Python primitives used by `_parse_object` -/

/-- `data.find(bytes([b]))`: first index or `-1`. -/
def pyFind (b : Nat) (data : Bytes) : Int :=
  match findByte b data with
  | none => -1
  | some i => (i : Int)

/-- Clamp a Python slice bound (negative values count from the end). -/
def pyIdx (len : Nat) (i : Int) : Nat :=
  if i < 0 then ((len : Int) + i).toNat else min len i.toNat

/-- `data[a:b]` with Python semantics. -/
def pySlice (data : Bytes) (a b : Int) : Bytes :=
  (data.take (pyIdx data.length b)).drop (pyIdx data.length a)

/-- `data[a:]` with Python semantics. -/
def pySliceFrom (data : Bytes) (a : Int) : Bytes :=
  data.drop (pyIdx data.length a)

/-- Python `str.strip()` whitespace. -/
def isWS (c : Nat) : Bool :=
  c = 32 || c = 9 || c = 10 || c = 13 || c = 11 || c = 12

/-- `s.strip()`. -/
def pyStrip (s : Bytes) : Bytes :=
  ((s.dropWhile isWS).reverse.dropWhile isWS).reverse

/-- All ASCII decimal digits? -/
def allDigits (s : Bytes) : Bool := s.all (fun c => 48 ≤ c && c ≤ 57)

/-- Numeric value of a digit string. -/
def digitsVal (s : Bytes) : Nat := s.foldl (fun a c => a * 10 + (c - 48)) 0

def digitsVal? (s : Bytes) : Option Nat :=
  if s.isEmpty then none
  else if allDigits s then some (digitsVal s) else none

/-- The sign-and-digits part of `int(s)`, after stripping. -/
def pyIntCore : Bytes → Option Int
  | [] => none
  | c :: rest =>
    if c = 45 then (digitsVal? rest).map (fun n => -(n : Int))
    else if c = 43 then (digitsVal? rest).map (fun n => (n : Int))
    else (digitsVal? (c :: rest)).map (fun n => (n : Int))

/-- `int(s)` on a byte string: optional surrounding whitespace, an
optional sign, then decimal digits; anything else raises (`none`). -/
def pyInt? (s : Bytes) : Option Int :=
  pyIntCore (pyStrip s)

/-! ## Object store reads (src/gitsy/services/objects.py) -/

/-- `_parse_object(data)`: split at the first SP and the first NUL,
parse the decimal size (including the leading SP, which Python's
`int` strips), return `(type, size, data)`.  `none` models the
exceptions `int` raises on a malformed size (the enclosing
`read_object` turns any of them into `cannot parse`; the byte-to-str
decoding, which can only fail on non-ASCII type bytes, is kept as the
identity). -/
def parseObject (data : Bytes) : Option (Bytes × Int × Bytes) :=
  let space_index := pyFind 32 data
  let obj_type := pySlice data 0 space_index
  let null_index := pyFind 0 data
  let obj_size := pySlice data space_index null_index
  let obj_data := pySliceFrom data (null_index + 1)
  (pyInt? obj_size).map (fun n => (obj_type, n, obj_data))

/-- The error kinds raised by the services modelled here. -/
inductive Err where
  | missing (sha : Bytes)
  | cannotParse (sha : Bytes)
  | typeMismatch (sha objType : Bytes)
  | badLength (sha : Bytes)
  | invalidKind (objType : Bytes)
  | noName
  | notFound (name : Bytes)
  | ambiguous (name : Bytes) (candidates : List Bytes)
  | missingFile (path : Bytes)
  | headerMissing (key : Bytes)
  | invalidRefArgs
  | alreadyExists (path : Bytes)
  | notDirectory (path : Bytes)
  | notEmpty (path : Bytes)
  | attrError
  | refCycle
  deriving DecidableEq

deriving instance DecidableEq for Except

/-- `_get_object_class` succeeds exactly on the four object kinds. -/
def validKind (t : Bytes) : Bool :=
  t = bytesOfString "blob" || t = bytesOfString "commit" ||
    t = bytesOfString "tag" || t = bytesOfString "tree"

/-- A loaded object: its envelope kind and body bytes.  The typed
constructors (`Blob`/`Commit`/`Tag`/`Tree`) keep exactly these fields;
the header-derived attributes used by `find_object` are read from
`data` through the message parser below. -/
structure GitObject where
  type_ : Bytes
  data : Bytes
  deriving DecidableEq

/-- `read_object(repo, sha, obj_type)`: look up the fan-out file,
decompress (modelled as identity), parse the envelope
(`cannot parse` on failure), validate the requested type, validate the
declared length against the body, and dispatch on the kind. -/
def read_object (repo : Repository) (sha : Bytes) (obj_type : Option Bytes := none) :
    Except Err GitObject :=
  match repo.lookupObject sha with
  | none => .error (.missing sha)
  | some raw_data =>
    match parseObject raw_data with
    | none => .error (.cannotParse sha)
    | some (parsed_obj_type, obj_size, obj_data) =>
      if (match obj_type with
          | some ot => !ot.isEmpty && !(parsed_obj_type == ot)
          | none => false) then
        .error (.typeMismatch sha (obj_type.getD []))
      else if obj_size ≠ (obj_data.length : Int) then
        .error (.badLength sha)
      else if validKind parsed_obj_type then
        .ok ⟨parsed_obj_type, obj_data⟩
      else
        .error (.invalidKind parsed_obj_type)

/-! ## Name resolution (src/gitsy/services/objects.py
`resolve_object_name`) -/

/-- `s.lower()` over ASCII. -/
def pyLower (s : Bytes) : Bytes :=
  s.map (fun c => if 65 ≤ c ∧ c ≤ 90 then c + 32 else c)

/-- `s.upper()` over ASCII. -/
def pyUpper (s : Bytes) : Bytes :=
  s.map (fun c => if 97 ≤ c ∧ c ≤ 122 then c - 32 else c)

/-- A lowercase hex character `[0-9a-f]`. -/
def isHexLower (c : Nat) : Bool := (48 ≤ c && c ≤ 57) || (97 ≤ c && c ≤ 102)

/-- `FULL_HASH_REGEX`: `^[0-9a-f]{40}$`. -/
def isFullHash (s : Bytes) : Bool := s.length = 40 && s.all isHexLower

/-- `SHORT_HASH_REGEX`: `^[0-9a-f]{4,40}$`. -/
def isShortHash (s : Bytes) : Bool :=
  4 ≤ s.length && s.length ≤ 40 && s.all isHexLower

/-- `resolve_object_name(repo, name)` as written in the source: the
emptiness check precedes the strip/lower normalization; a stored full
hash is returned as-is; otherwise the fan-out directory
`objects/<name[0:2]>/` is scanned for filenames starting with
`name[2:]`, re-prefixing each hit (a fan-out directory exists exactly
when some object is stored under it). -/
def resolve_object_name (repo : Repository) (name : Bytes) : Except Err Bytes :=
  if name = [] then .error .noName
  else
    let nm := pyLower (pyStrip name)
    if isFullHash nm && (repo.lookupObject nm).isSome then .ok nm
    else if isShortHash nm && !(repo.objects.any (fun p => p.1.take 2 == nm.take 2)) then
      .error (.notFound nm)
    else
      let candidates :=
        if isShortHash nm then
          (repo.objects.filter (fun p =>
            p.1.take 2 == nm.take 2 && (nm.drop 2).isPrefixOf (p.1.drop 2))).map
            (fun p => nm.take 2 ++ p.1.drop 2)
        else []
      if candidates.length = 1 then .ok (candidates.headD [])
      else if candidates = [] then .error (.notFound nm)
      else .error (.ambiguous nm candidates)

/-! ## References (src/gitsy/services/refs.py) -/

/-- `f.readline()`: the first line including its LF, or the whole
content when it has no LF. -/
def pyReadline : Bytes → Bytes
  | [] => []
  | c :: rest => if c = 10 then [10] else c :: pyReadline rest

/-- Write (or overwrite) a ref file. -/
def Repository.writeFile (repo : Repository) (path content : Bytes) : Repository :=
  if (repo.files.find? (fun p => p.1 == path)).isSome then
    { repo with files := repo.files.map (fun p => if p.1 == path then (path, content) else p) }
  else
    { repo with files := repo.files ++ [(path, content)] }

/-- `resolve_ref(repo, name)`: read the file at `name` relative to the
metadata directory (`repo_file` raises when it does not exist), take
`readline()[:-1]` — note the unconditional drop of the final
character — and either recurse on a `ref: ` target or return the data.
Recursion is fuelled; `none` means the fuel ran out. -/
def resolve_ref (fuel : Nat) (repo : Repository) (name : Bytes) :
    Option (Except Err Bytes) :=
  match fuel with
  | 0 => none
  | fuel + 1 =>
    match repo.files.find? (fun p => p.1 == name) with
    | none => some (.error (.missingFile name))
    | some p =>
      let data := (pyReadline p.2).dropLast
      if (bytesOfString "ref: ").isPrefixOf data then
        resolve_ref fuel repo (data.drop 5)
      else
        some (.ok data)

/-- `create_ref(repo, name, ref, sha, force)`: exactly one of `ref`
(symbolic) and `sha` (direct) must be truthy; the text encoding is
written, without trailing LF, to `refs/<name>`; an existing file is
refused unless `force` is set. -/
def create_ref (repo : Repository) (name : Bytes) (ref sha : Option Bytes)
    (force : Bool) : Except Err Repository :=
  let refT : Bool := match ref with | some r => !r.isEmpty | none => false
  let shaT : Bool := match sha with | some s => !s.isEmpty | none => false
  if refT && !shaT then
    let data := bytesOfString "ref: " ++ ref.getD []
    let path := bytesOfString "refs/" ++ name
    if !force && (repo.files.find? (fun p => p.1 == path)).isSome then
      .error (.alreadyExists path)
    else
      .ok (repo.writeFile path data)
  else if shaT && !refT then
    let data := sha.getD []
    let path := bytesOfString "refs/" ++ name
    if !force && (repo.files.find? (fun p => p.1 == path)).isSome then
      .error (.alreadyExists path)
    else
      .ok (repo.writeFile path data)
  else
    .error .invalidRefArgs

/-! ## Type-following (src/gitsy/services/objects.py `find_object`) -/

/-- `message.get_header(key)`: the first value stored under a header
key, when present. -/
def getHeader? (hs : Headers) (k : Bytes) : Option Bytes :=
  (hs.find? (fun p => p.1 == k)).bind (fun p => p.2.head?)

/-- Modelled from the spec: `gitsy.models.objects` is not under src/
(only its tests and callers are).  Per the spec — "`tag` → read the
tag's `object` header" — and the tests (`tag.obj_sha` equals the value
of the parsed message's `object` header), `Tag.obj_sha` is the first
`object` header of the parsed body. -/
def Tag.obj_sha? (body : Bytes) : Option Bytes :=
  getHeader? (Message.parse body).headers (bytesOfString "object")

/-- Modelled from the spec: `gitsy.models.objects` is not under src/.
Per the spec — "`commit` with `expected_kind = tree` → read the
commit's `tree` header" — and the tests (`commit.tree_sha` equals the
value of the parsed message's `tree` header), `Commit.tree_sha` is the
first `tree` header of the parsed body. -/
def Commit.tree_sha? (body : Bytes) : Option Bytes :=
  getHeader? (Message.parse body).headers (bytesOfString "tree")

/-- The `while True` loop of `find_object`, fuelled: `none` means the
loop has not produced a result within `fuel` iterations.  `.ok none`
models `return None`; a header access on a tag or commit that lacks
the followed key raises (as Python `get_header` does). -/
def find_object_loop (repo : Repository) (obj_type : Bytes) (follow : Bool) :
    Nat → Bytes → Option (Except Err (Option Bytes))
  | 0, _ => none
  | fuel + 1, sha =>
    match read_object repo sha none with
    | .error e => some (.error e)
    | .ok obj =>
      if obj.type_ == obj_type then some (.ok (some sha))
      else if !follow then some (.ok none)
      else if obj.type_ == bytesOfString "tag" then
        match Tag.obj_sha? obj.data with
        | none => some (.error (.headerMissing (bytesOfString "object")))
        | some sha' => find_object_loop repo obj_type follow fuel sha'
      else if obj.type_ == bytesOfString "commit" && obj_type == bytesOfString "tree" then
        match Commit.tree_sha? obj.data with
        | none => some (.error (.headerMissing (bytesOfString "tree")))
        | some sha' => find_object_loop repo obj_type follow fuel sha'
      else some (.ok none)

/-- `find_object(repo, name, obj_type, follow)`: the name `HEAD`
(case-insensitively) short-circuits to `resolve_ref(repo, "HEAD")`;
otherwise the name is resolved and, when an expected type is given,
the fuelled follow loop runs. -/
def find_object (fuel : Nat) (repo : Repository) (name : Bytes)
    (obj_type : Option Bytes) (follow : Bool) : Option (Except Err (Option Bytes)) :=
  if pyUpper name == bytesOfString "HEAD" then
    (resolve_ref fuel repo (bytesOfString "HEAD")).map (Except.map some)
  else
    match resolve_object_name repo name with
    | .error e => some (.error e)
    | .ok sha =>
      match obj_type with
      | none => some (.ok (some sha))
      | some ot => find_object_loop repo ot follow fuel sha

/-- The successor of one iteration of the `find_object` follow loop
(with `follow = true`): `none` when the loop stops at this object
(by returning or raising), the next hash when it continues. -/
def follow_succ (repo : Repository) (obj_type : Bytes) (sha : Bytes) : Option Bytes :=
  match read_object repo sha none with
  | .error _ => none
  | .ok obj =>
    if obj.type_ == obj_type then none
    else if obj.type_ == bytesOfString "tag" then Tag.obj_sha? obj.data
    else if obj.type_ == bytesOfString "commit" && obj_type == bytesOfString "tree" then
      Commit.tree_sha? obj.data
    else none

/-- Iterate `follow_succ`; `none` once the loop has stopped. -/
def succ_iter (repo : Repository) (obj_type : Bytes) : Nat → Bytes → Option Bytes
  | 0, sha => some sha
  | n + 1, sha =>
    match follow_succ repo obj_type sha with
    | none => none
    | some s' => succ_iter repo obj_type n s'

/-- `find_object` diverges: no amount of fuel makes the loop produce a
result. -/
def FindObjectDiverges (repo : Repository) (name : Bytes) (obj_type : Option Bytes)
    (follow : Bool) : Prop :=
  ∀ fuel, find_object fuel repo name obj_type follow = none

/-- A tag object whose `object` header names its own hash. -/
def cycTagName : Bytes := bytesOfString "aaaaaaaaaaaaaaaaaaaaaaaaaaaaaaaaaaaaaaaa"

/-- A repository holding only that self-referential tag. -/
def cycTagRepo : Repository :=
  ⟨[(cycTagName,
     bytesOfString "tag 50\x00object aaaaaaaaaaaaaaaaaaaaaaaaaaaaaaaaaaaaaaaa\n\nx")], []⟩

/-! ## Tree codec

Modelled from the spec: the tree codec consumed by the tree services
(`gitsy.models.objects` `Tree`/`TreeNode`, whose parsed nodes carry
`mode`, `path` and the hex `sha` that `ls_tree` and `_checkout_tree`
read) is not under src/ — the `wyag.models.objects.Tree` in the source
is an unimplemented stub.  Spec §4.C: `parse_tree` reads, per entry,
bytes up to SP (mode), bytes up to NUL (path), then 20 raw hash bytes
kept as lowercase hex, preserving order; `emit_tree` concatenates
`mode ∥ " " ∥ path ∥ "\0" ∥ unhex(hash)` in the given order. -/

/-- A parsed tree entry. -/
structure TreeNode where
  mode : Bytes
  path : Bytes
  sha : Bytes
  deriving DecidableEq

/-- Value of a lowercase hex digit character. -/
def hexVal (c : Nat) : Nat := if c ≤ 57 then c - 48 else c - 87

/-- Decode a lowercase hex string back to raw bytes. -/
def hexDecode : Bytes → Bytes
  | c1 :: c2 :: rest => (hexVal c1 * 16 + hexVal c2) :: hexDecode rest
  | _ => []

/-- Modelled from the spec (§4.C): `parse_tree(body)`, fuelled by the
number of entries. -/
def parse_tree_fuel : Nat → Bytes → List TreeNode
  | 0, _ => []
  | fuel + 1, data =>
    match findByte 32 data with
    | none => []
    | some s =>
      let mode := data.take s
      let rest := data.drop (s + 1)
      match findByte 0 rest with
      | none => []
      | some z =>
        let path := rest.take z
        let rest2 := rest.drop (z + 1)
        ⟨mode, path, hexEncode (rest2.take 20)⟩ :: parse_tree_fuel fuel (rest2.drop 20)

/-- Modelled from the spec (§4.C): `parse_tree(body)`. -/
def parse_tree (data : Bytes) : List TreeNode :=
  parse_tree_fuel (data.length + 1) data

/-- Modelled from the spec (§4.C): `emit_tree(entries)`. -/
def emit_tree (nodes : List TreeNode) : Bytes :=
  (nodes.map (fun n => n.mode ++ 32 :: (n.path ++ 0 :: hexDecode n.sha))).foldr
    (· ++ ·) []

/-- A well-formed raw tree entry: no SP in the mode, no NUL in the
path, and a 20-byte raw hash. -/
def GoodTreeEntry (e : Bytes × Bytes × Bytes) : Prop :=
  32 ∉ e.1 ∧ 0 ∉ e.2.1 ∧ e.2.2.length = 20 ∧ ∀ b ∈ e.2.2, b < 256

instance : DecidablePred GoodTreeEntry := fun e => by
  unfold GoodTreeEntry; infer_instance

/-- A well-formed tree body: the concatenation of its raw entries. -/
def renderTreeBody : List (Bytes × Bytes × Bytes) → Bytes
  | [] => []
  | (m, p, h) :: rest => m ++ 32 :: (p ++ 0 :: (h ++ renderTreeBody rest))

/-! ## Tree materialization (src/wyag/services/tree.py `checkout`) -/

/-- A filesystem entry at a path: a regular file or a directory. -/
inductive FSEntry where
  | file (content : Bytes)
  | dir
  deriving DecidableEq

/-- The destination filesystem: path → entry. -/
abbrev Filesystem := List (Bytes × FSEntry)

/-- `read_object(repo, sha)` of src/wyag/services/objects.py: no
expected-type parameter, and the length check compares the declared
size against `len(raw_data) - null_index - 1`.  The `ValueError` an
unparseable size raises (this draft has no try/except) is the
cannot-parse error. -/
def wyag_read_object (repo : Repository) (sha : Bytes) : Except Err GitObject :=
  match repo.lookupObject sha with
  | none => .error (.missing sha)
  | some raw_data =>
    let space_index := pyFind 32 raw_data
    let obj_type := pySlice raw_data 0 space_index
    let null_index := pyFind 0 raw_data
    let obj_size := pySlice raw_data space_index null_index
    match pyInt? obj_size with
    | none => .error (.cannotParse sha)
    | some n =>
      if n ≠ ((raw_data.length : Int) - null_index - 1) then .error (.badLength sha)
      else
        let obj_data := pySliceFrom raw_data (null_index + 1)
        if validKind obj_type then .ok ⟨obj_type, obj_data⟩
        else .error (.invalidKind obj_type)

/-- Modelled from the spec: `wyag.services.objects.resolve_object`,
which `checkout` imports, is absent from the source (the module only
has a stub `resolve_sha`).  Per spec §4.E free-form name resolution:
trim and lowercase; empty → `InvalidArgument`; `HEAD` → reference
resolution (with the spec's recommended depth cap of 8); a stored full
hex hash → itself; a 4-to-40 hex prefix → the unique stored hash with
that prefix, `NotFound`/`Ambiguous` otherwise; anything else →
`NotFound`.  The caller's indexing (`resolve_object(...)[0]`) is
absorbed: the resolved full hash is returned. -/
def resolve_object_spec (repo : Repository) (name : Bytes) : Except Err Bytes :=
  let nm := pyLower (pyStrip name)
  if nm = [] then .error .noName
  else if pyUpper nm == bytesOfString "HEAD" then
    match resolve_ref 8 repo (bytesOfString "HEAD") with
    | none => .error .refCycle
    | some r => r
  else if isFullHash nm && (repo.lookupObject nm).isSome then .ok nm
  else if isShortHash nm then
    match (repo.objects.map Prod.fst).filter (fun h => nm.isPrefixOf h) with
    | [] => .error (.notFound nm)
    | [h] => .ok h
    | hs => .error (.ambiguous nm hs)
  else .error (.notFound nm)

/-- `checkout(repo, sha, path)` of src/wyag/services/tree.py: resolve
the name, read the object; a commit raises when its tree is fetched
(the wyag draft calls `read_object` with an `obj_type` keyword it does
not accept, on a `commit.tree_sha` attribute its message objects do
not define); then require `path` to be a missing path (created as a
directory) or an empty directory.  The function then returns: the
recursive tree walk `_checkout_tree` is never invoked, so nothing is
ever written into the destination. -/
def checkout (repo : Repository) (fs : Filesystem) (sha : Bytes) (path : Bytes) :
    Except Err Filesystem :=
  match resolve_object_spec repo sha with
  | .error e => .error e
  | .ok full_sha =>
    match wyag_read_object repo full_sha with
    | .error e => .error e
    | .ok obj =>
      if obj.type_ == bytesOfString "commit" then .error .attrError
      else
        match fs.find? (fun p => p.1 == path) with
        | some (_, .file _) => .error (.notDirectory path)
        | some (_, .dir) =>
          if fs.any (fun p => (path ++ [47]).isPrefixOf p.1) then
            .error (.notEmpty path)
          else .ok fs
        | none => .ok (fs ++ [(path, .dir)])

theorem findByte_cons_self (b : Nat) (rest : Bytes) :
    findByte b (b :: rest) = some 0 := by
  simp [findByte]

theorem findByte_eq_none (b : Nat) (l : Bytes) (h : b ∉ l) :
    findByte b l = none := by
  induction l with
  | nil => rfl
  | cons c rest ih =>
    simp only [List.mem_cons, not_or] at h
    have hc : ¬ c = b := fun hcb => h.1 hcb.symm
    simp [findByte, hc, ih h.2]

theorem findByte_append_of_not_mem (b : Nat) (pre l : Bytes) (h : b ∉ pre) :
    findByte b (pre ++ l) = (findByte b l).map (· + pre.length) := by
  induction pre with
  | nil =>
    cases hfb : findByte b l <;> simp [hfb]
  | cons c rest ih =>
    simp only [List.mem_cons, not_or] at h
    have hc : ¬ c = b := fun hcb => h.1 hcb.symm
    have ih' := ih h.2
    simp only [List.cons_append, findByte, hc, if_false, List.length_cons]
    rw [List.append_eq, ih']
    cases hfb : findByte b l with
    | none => rfl
    | some k =>
      exact congrArg some (show k + rest.length + 1 = k + (rest.length + 1) by omega)

theorem findByte_isSome_of_mem (b : Nat) (l : Bytes) (h : b ∈ l) :
    (findByte b l).isSome := by
  induction l with
  | nil => simp at h
  | cons c rest ih =>
    by_cases hc : c = b
    · simp [findByte, hc]
    · have hb : b ∈ rest := by
        rcases List.mem_cons.mp h with h' | h'
        · exact absurd h'.symm hc
        · exact h'
      have hrest := ih hb
      simp only [findByte, hc, if_false]
      cases hfb : findByte b rest with
      | none => rw [hfb] at hrest; simp at hrest
      | some k => simp

theorem take_length_append (l₁ l₂ : Bytes) : (l₁ ++ l₂).take l₁.length = l₁ := by
  simp [List.take_append]

theorem drop_length_append (l₁ l₂ : Bytes) : (l₁ ++ l₂).drop l₁.length = l₂ := by
  simp [List.drop_append]

theorem unfoldValue_cons_of_ne (c : Nat) (xs : Bytes) (h : c ≠ 10) :
    unfoldValue (c :: xs) = c :: unfoldValue xs := by
  rw [unfoldValue.eq_def]
  split
  · rename_i heq
    exact absurd heq (List.cons_ne_nil c xs)
  · rename_i rest heq
    injection heq with h1 _
    exact absurd h1 h
  · rename_i c' rest' hno heq
    injection heq with h1 h2
    subst h1; subst h2
    rfl

theorem unfoldValue_foldValue (v : Bytes) : unfoldValue (foldValue v) = v := by
  induction v with
  | nil => rfl
  | cons c rest ih =>
    by_cases hc : c = 10
    · subst hc
      show unfoldValue (10 :: 32 :: foldValue rest) = 10 :: rest
      rw [show unfoldValue (10 :: 32 :: foldValue rest) = 10 :: unfoldValue (foldValue rest)
        from rfl, ih]
    · rw [foldValue, if_neg hc, unfoldValue_cons_of_ne c _ hc, ih]

theorem scanValue_cons_of_ne (c : Nat) (xs : Bytes) (h : c ≠ 10) :
    scanValue (c :: xs) = (c :: (scanValue xs).1, (scanValue xs).2) := by
  rw [scanValue.eq_def]
  split
  · rename_i heq
    exact absurd heq (List.cons_ne_nil c xs)
  · rename_i c' rest' heq
    injection heq with h1 h2
    subst h1; subst h2
    rw [if_neg h]

theorem scanValue_lf_cont (rest2 : Bytes) :
    scanValue (10 :: 32 :: rest2) =
      (10 :: 32 :: (scanValue rest2).1, (scanValue rest2).2) := by
  simp [scanValue]

theorem scanValue_lf_stop (rem : Bytes) (h : rem.head? ≠ some 32) :
    scanValue (10 :: rem) = ([], rem) := by
  rw [scanValue.eq_def]
  split
  · rename_i heq
    exact absurd heq (List.cons_ne_nil _ _)
  · rename_i c' rest' heq
    injection heq with h1 h2
    subst h1; subst h2
    rw [if_pos rfl]
    split
    · exact absurd (by simp) h
    · rfl

/-- The raw on-wire value produced by folding, followed by the line
terminator and the rest of the buffer, is scanned back exactly. -/
theorem scanValue_foldValue (v rem : Bytes) (h : rem.head? ≠ some 32) :
    scanValue (foldValue v ++ 10 :: rem) = (foldValue v, rem) := by
  induction v with
  | nil => simpa [foldValue] using scanValue_lf_stop rem h
  | cons c rest ih =>
    by_cases hc : c = 10
    · subst hc
      rw [foldValue, if_pos rfl]
      have : (10 :: 32 :: foldValue rest) ++ 10 :: rem
          = 10 :: 32 :: (foldValue rest ++ 10 :: rem) := by simp
      rw [this, scanValue_lf_cont, ih]
    · rw [foldValue, if_neg hc, List.cons_append, scanValue_cons_of_ne c _ hc, ih]

theorem renderTail_head_ne (pairs : List (Bytes × Bytes)) (text : Bytes)
    (hk : ∀ p ∈ pairs, GoodKey p.1) :
    (renderLines pairs ++ 10 :: text).head? ≠ some 32 := by
  cases pairs with
  | nil => simp [renderLines]
  | cons p rest =>
    obtain ⟨k, v⟩ := p
    have hkk : GoodKey k := hk (k, v) (by simp)
    obtain ⟨a, k', rfl⟩ : ∃ a k', k = a :: k' := by
      cases k with
      | nil => exact absurd rfl hkk.1
      | cons a k' => exact ⟨a, k', rfl⟩
    have ha : a ≠ 32 := fun hmem => hkk.2.1 (hmem ▸ List.mem_cons_self a k')
    simp [renderLines, Message.writeLine, ha]

/-- Parsing a well-formed rendered message accumulates exactly the
header pairs, in order, and returns the text payload. -/
theorem parseFuel_render (pairs : List (Bytes × Bytes)) (text : Bytes) :
    ∀ fuel acc, (∀ p ∈ pairs, GoodKey p.1) → pairs.length < fuel →
      Message.parseFuel fuel (renderMessage pairs text) acc
        = ⟨pairs.foldl (fun a kv => addHeader a kv.1 kv.2) acc, text⟩ := by
  induction pairs with
  | nil =>
    intro fuel acc _ hf
    cases fuel with
    | zero => omega
    | succ f =>
      show Message.parseFuel (f + 1) (renderLines [] ++ 10 :: text) acc = _
      rw [show renderLines [] ++ 10 :: text = 10 :: text from rfl]
      rw [Message.parseFuel]
      cases h32 : findByte 32 text with
      | none => simp [findByte, h32]
      | some j => simp [findByte, h32]
  | cons p rest ih =>
    intro fuel acc hk hf
    obtain ⟨k, v⟩ := p
    cases fuel with
    | zero => omega
    | succ f =>
      have hkk : GoodKey k := hk (k, v) (by simp)
      have hkRest : ∀ q ∈ rest, GoodKey q.1 := fun q hq => hk q (List.mem_cons_of_mem _ hq)
      have hdata : renderMessage ((k, v) :: rest) text
          = k ++ 32 :: (foldValue v ++ 10 :: (renderLines rest ++ 10 :: text)) := by
        simp [renderMessage, renderLines, Message.writeLine]
      set tail := renderLines rest ++ 10 :: text with htail
      have h32 : findByte 32 (renderMessage ((k, v) :: rest) text) = some k.length := by
        rw [hdata, findByte_append_of_not_mem 32 k _ hkk.2.1, findByte_cons_self]
        simp
      have h10mem : (10 : Nat) ∈ foldValue v ++ 10 :: tail :=
        List.mem_append_right _ (List.mem_cons_self 10 tail)
      obtain ⟨j, hj⟩ : ∃ j, findByte 10 (foldValue v ++ 10 :: tail) = some j := by
        cases hfb : findByte 10 (foldValue v ++ 10 :: tail) with
        | none =>
          have := findByte_isSome_of_mem 10 _ h10mem
          rw [hfb] at this; simp at this
        | some j => exact ⟨j, rfl⟩
      have h10 : findByte 10 (renderMessage ((k, v) :: rest) text)
          = some (j + 1 + k.length) := by
        rw [hdata, findByte_append_of_not_mem 10 k _ hkk.2.2]
        rw [show findByte 10 (32 :: (foldValue v ++ 10 :: tail))
            = (findByte 10 (foldValue v ++ 10 :: tail)).map (· + 1) from by
          simp [findByte]]
        rw [hj]; rfl
      have htake : (renderMessage ((k, v) :: rest) text).take k.length = k := by
        rw [hdata]
        exact take_length_append k _
      have hdrop : (renderMessage ((k, v) :: rest) text).drop (k.length + 1)
          = foldValue v ++ 10 :: tail := by
        rw [hdata, show k ++ 32 :: (foldValue v ++ 10 :: tail)
            = (k ++ [32]) ++ (foldValue v ++ 10 :: tail) from by simp]
        rw [show k.length + 1 = (k ++ [32]).length from by simp]
        exact drop_length_append _ _
      have hscan : scanValue (foldValue v ++ 10 :: tail) = (foldValue v, tail) :=
        scanValue_foldValue v tail (renderTail_head_ne rest text hkRest)
      rw [Message.parseFuel]
      simp only [h32, h10]
      rw [if_neg (show ¬ (j + 1 + k.length < k.length) by omega)]
      simp only [htake, hdrop, hscan, unfoldValue_foldValue]
      rw [List.foldl_cons]
      have hflen : rest.length < f := by
        simp only [List.length_cons] at hf
        omega
      exact ih f (addHeader acc k v) hkRest hflen

theorem renderLines_append (a b : List (Bytes × Bytes)) :
    renderLines (a ++ b) = renderLines a ++ renderLines b := by
  induction a with
  | nil => rfl
  | cons p rest ih =>
    obtain ⟨k, v⟩ := p
    simp [renderLines, ih]

theorem renderLines_map_value (k : Bytes) (vs : List Bytes) :
    renderLines (vs.map (fun v => (k, v)))
      = (vs.map (Message.writeLine k)).foldr (· ++ ·) [] := by
  induction vs with
  | nil => rfl
  | cons v rest ih => simp [renderLines, ih]

theorem writeHeaders_flattenGrouped (g : Headers) :
    Message.writeHeaders g = renderLines (flattenGrouped g) := by
  induction g with
  | nil => rfl
  | cons p rest ih =>
    obtain ⟨k, vs⟩ := p
    rw [Message.writeHeaders, flattenGrouped, renderLines_append, ih,
      renderLines_map_value]

theorem addHeader_fresh (acc : Headers) (k v : Bytes)
    (h : k ∉ acc.map Prod.fst) : addHeader acc k v = acc ++ [(k, [v])] := by
  induction acc with
  | nil => rfl
  | cons p rest ih =>
    obtain ⟨k', vs'⟩ := p
    simp only [List.map_cons, List.mem_cons, not_or] at h
    rw [addHeader, if_neg (fun he => h.1 he.symm), ih h.2, List.cons_append]

theorem addHeader_last (acc : Headers) (k : Bytes) (ws : List Bytes) (v : Bytes)
    (h : k ∉ acc.map Prod.fst) :
    addHeader (acc ++ [(k, ws)]) k v = acc ++ [(k, ws ++ [v])] := by
  induction acc with
  | nil => simp [addHeader]
  | cons p rest ih =>
    obtain ⟨k', vs'⟩ := p
    simp only [List.map_cons, List.mem_cons, not_or] at h
    rw [List.cons_append, addHeader, if_neg (fun he => h.1 he.symm), ih h.2,
      List.cons_append]

theorem foldl_addHeader_run (k : Bytes) (vs : List Bytes) :
    ∀ acc ws, k ∉ acc.map Prod.fst →
      List.foldl (fun a kv => addHeader a kv.1 kv.2) (acc ++ [(k, ws)])
          (vs.map (fun v => (k, v)))
        = acc ++ [(k, ws ++ vs)] := by
  induction vs with
  | nil => intro acc ws _; simp
  | cons v rest ih =>
    intro acc ws h
    rw [List.map_cons, List.foldl_cons]
    rw [show addHeader (acc ++ [(k, ws)]) (k, v).1 (k, v).2
        = acc ++ [(k, ws ++ [v])] from addHeader_last acc k ws v h]
    rw [ih acc (ws ++ [v]) h]
    simp

theorem foldl_addHeader_flattenGrouped (g : Headers) :
    ∀ acc : Headers,
      (∀ p ∈ g, p.1 ∉ acc.map Prod.fst) →
      (g.map Prod.fst).Nodup →
      (∀ p ∈ g, p.2 ≠ []) →
      List.foldl (fun a kv => addHeader a kv.1 kv.2) acc (flattenGrouped g)
        = acc ++ g := by
  induction g with
  | nil => intro acc _ _ _; simp [flattenGrouped]
  | cons p rest ih =>
    intro acc hfresh hnodup hne
    obtain ⟨k, vs⟩ := p
    obtain ⟨v, vs', rfl⟩ : ∃ v vs', vs = v :: vs' := by
      cases vs with
      | nil => exact absurd rfl (hne (k, []) (by simp))
      | cons v vs' => exact ⟨v, vs', rfl⟩
    have hkacc : k ∉ acc.map Prod.fst := hfresh (k, v :: vs') (by simp)
    rw [flattenGrouped, List.foldl_append, List.map_cons, List.foldl_cons]
    rw [show addHeader acc (k, v).1 (k, v).2 = acc ++ [(k, [v])] from
      addHeader_fresh acc k v hkacc]
    rw [foldl_addHeader_run k vs' acc [v] hkacc]
    have hrest : ∀ q ∈ rest, q.1 ∉ (acc ++ [(k, [v] ++ vs')]).map Prod.fst := by
      intro q hq
      simp only [List.map_append, List.mem_append, List.map_cons, List.map_nil,
        List.mem_cons, List.not_mem_nil, not_or]
      refine ⟨hfresh q (List.mem_cons_of_mem _ hq), ?_, fun hfalse => hfalse⟩
      intro hqk
      rw [List.map_cons] at hnodup
      have hmem : q.1 ∈ rest.map Prod.fst := List.mem_map_of_mem Prod.fst hq
      rw [hqk] at hmem
      exact (List.nodup_cons.mp hnodup).1 hmem
    have := ih (acc ++ [(k, [v] ++ vs')]) hrest
      (by rw [List.map_cons] at hnodup; exact (List.nodup_cons.mp hnodup).2)
      (fun q hq => hne q (List.mem_cons_of_mem _ hq))
    rw [this, List.append_assoc]
    rfl

theorem flattenGrouped_goodKeys (g : Headers) (hk : ∀ p ∈ g, GoodKey p.1) :
    ∀ q ∈ flattenGrouped g, GoodKey q.1 := by
  induction g with
  | nil => intro q hq; simp [flattenGrouped] at hq
  | cons p rest ih =>
    intro q hq
    obtain ⟨k, vs⟩ := p
    rw [flattenGrouped, List.mem_append] at hq
    rcases hq with hq | hq
    · obtain ⟨v, _, rfl⟩ := List.mem_map.mp hq
      exact hk (k, vs) (by simp)
    · exact ih (fun r hr => hk r (List.mem_cons_of_mem _ hr)) q hq

theorem renderLines_length_ge (pairs : List (Bytes × Bytes)) :
    pairs.length ≤ (renderLines pairs).length := by
  induction pairs with
  | nil => simp [renderLines]
  | cons p rest ih =>
    obtain ⟨k, v⟩ := p
    simp only [renderLines, Message.writeLine, List.length_append, List.length_cons]
    simp at ih ⊢
    omega

/-- `Message.parse` on a rendered well-formed message. -/
theorem parse_renderMessage (pairs : List (Bytes × Bytes)) (text : Bytes)
    (hk : ∀ p ∈ pairs, GoodKey p.1) :
    Message.parse (renderMessage pairs text)
      = ⟨pairs.foldl (fun a kv => addHeader a kv.1 kv.2) [], text⟩ := by
  apply parseFuel_render pairs text _ [] hk
  have h1 := renderLines_length_ge pairs
  have h2 : (renderMessage pairs text).length = (renderLines pairs).length + 1 + text.length := by
    simp [renderMessage]
    omega
  omega

/-- C1, counterexample: on the well-formed message
`"a x\nb y\na z\n\nT"` (two occurrences of key `a` separated by key
`b`), parsing and re-emitting does not return the input: the writer
groups the two `a` values together and appends an extra final LF. -/
theorem c1_roundtrip_counterexample :
    Message.write (Message.parse (bytesOfString "a x\nb y\na z\n\nT"))
      ≠ bytesOfString "a x\nb y\na z\n\nT" := by
  decide

/-- C1 (amended): for every well-formed message whose repeated keys
occur on adjacent lines (given as groups of values per key, with
distinct well-formed keys and at least one value per key), parsing with
`Message.parse` and emitting with `Message.write` returns the input
bytes with one extra LF appended after the text payload. -/
theorem c1_roundtrip_amended (g : Headers) (text : Bytes)
    (hkeys : ∀ p ∈ g, GoodKey p.1)
    (hnodup : (g.map Prod.fst).Nodup)
    (hne : ∀ p ∈ g, p.2 ≠ []) :
    Message.write (Message.parse (renderMessage (flattenGrouped g) text))
      = renderMessage (flattenGrouped g) text ++ [10] := by
  rw [parse_renderMessage (flattenGrouped g) text (flattenGrouped_goodKeys g hkeys),
    foldl_addHeader_flattenGrouped g [] (by simp) hnodup hne, List.nil_append]
  show Message.writeHeaders g ++ 10 :: (text ++ [10])
      = renderMessage (flattenGrouped g) text ++ [10]
  rw [writeHeaders_flattenGrouped, renderMessage]
  simp

/-- Witness for C1 (amended), at a concrete two-key message with a
folded multi-line value. -/
theorem c1_roundtrip_witness :
    Message.write (Message.parse (renderMessage (flattenGrouped
        [(bytesOfString "tree", [bytesOfString "29ff16c9"]),
         (bytesOfString "gpgsig", [bytesOfString "AB\nCD"])])
      (bytesOfString "Initial commit.\n")))
      = renderMessage (flattenGrouped
        [(bytesOfString "tree", [bytesOfString "29ff16c9"]),
         (bytesOfString "gpgsig", [bytesOfString "AB\nCD"])])
      (bytesOfString "Initial commit.\n") ++ [10] :=
  c1_roundtrip_amended
    [(bytesOfString "tree", [bytesOfString "29ff16c9"]),
     (bytesOfString "gpgsig", [bytesOfString "AB\nCD"])]
    (bytesOfString "Initial commit.\n")
    (by decide) (by decide) (by decide)

set_option maxRecDepth 100000 in
/-- C2: hashing the 13-byte blob body `"I am a banana"` without
persisting (`write = false`) frames it as `b"blob 13\x00I am a banana"`
and returns the SHA-1 hex string
`8ff79d2828b3af736abc66a922b2c48fed82d803`, leaving the repository
untouched. -/
theorem c2_hash_banana :
    write_object ⟨[], []⟩ ⟨bytesOfString "I am a banana"⟩ false
      = (⟨[], []⟩, bytesOfString "8ff79d2828b3af736abc66a922b2c48fed82d803") := by
  decide

theorem dropWhile_eq_self_of_not_ws (l : Bytes) (h : ∀ c ∈ l, isWS c = false) :
    l.dropWhile isWS = l := by
  cases l with
  | nil => rfl
  | cons c rest =>
    rw [List.dropWhile_cons_of_neg]
    simp [h c (List.mem_cons_self c rest)]

theorem pyStrip_digits (ds : Bytes) (hd : ∀ c ∈ ds, 48 ≤ c ∧ c ≤ 57) :
    pyStrip ds = ds := by
  have hws : ∀ c ∈ ds, isWS c = false := by
    intro c hc
    have := hd c hc
    simp [isWS]
    omega
  rw [pyStrip, dropWhile_eq_self_of_not_ws ds hws,
    dropWhile_eq_self_of_not_ws ds.reverse (fun c hc => hws c (List.mem_reverse.mp hc)),
    List.reverse_reverse]

theorem pyStrip_space_digits (ds : Bytes) (hd : ∀ c ∈ ds, 48 ≤ c ∧ c ≤ 57) :
    pyStrip (32 :: ds) = ds := by
  have hws : ∀ c ∈ ds, isWS c = false := by
    intro c hc
    have := hd c hc
    simp [isWS]
    omega
  rw [pyStrip, List.dropWhile_cons_of_pos (by simp [isWS])]
  rw [dropWhile_eq_self_of_not_ws ds hws,
    dropWhile_eq_self_of_not_ws ds.reverse (fun c hc => hws c (List.mem_reverse.mp hc)),
    List.reverse_reverse]

theorem pyInt_space_digits (ds : Bytes) (hne : ds ≠ [])
    (hd : ∀ c ∈ ds, 48 ≤ c ∧ c ≤ 57) :
    pyInt? (32 :: ds) = some (digitsVal ds : Int) := by
  obtain ⟨d, ds', rfl⟩ : ∃ d ds', ds = d :: ds' := by
    cases ds with
    | nil => exact absurd rfl hne
    | cons d ds' => exact ⟨d, ds', rfl⟩
  have hdd := hd d (List.mem_cons_self d ds')
  rw [pyInt?, pyStrip_space_digits _ hd, pyIntCore]
  rw [if_neg (by omega), if_neg (by omega)]
  rw [digitsVal?, if_neg (by simp), if_pos]
  · rfl
  · simp only [allDigits, List.all_eq_true]
    intro c hc
    have := hd c hc
    simp
    omega

theorem pySlice_prefix (pre suf : Bytes) :
    pySlice (pre ++ suf) 0 (pre.length : Int) = pre := by
  rw [pySlice, pyIdx, if_neg (by omega), pyIdx, if_neg (by omega)]
  simp only [Int.toNat_natCast, Int.toNat_zero, List.length_append]
  rw [min_eq_right (by omega), min_eq_right (by omega), List.drop_zero,
    take_length_append]

theorem pySlice_middle (pre mid suf : Bytes) :
    pySlice (pre ++ mid ++ suf) (pre.length : Int)
      ((pre.length + mid.length : Nat) : Int) = mid := by
  rw [pySlice, pyIdx, if_neg (by omega), pyIdx, if_neg (by omega)]
  simp only [Int.toNat_natCast, List.length_append]
  rw [min_eq_right (by omega), min_eq_right (by omega)]
  rw [show pre.length + mid.length = (pre ++ mid).length from by simp]
  rw [show pre ++ mid ++ suf = (pre ++ mid) ++ suf from by simp]
  rw [take_length_append, drop_length_append]

theorem pySliceFrom_at (pre suf : Bytes) :
    pySliceFrom (pre ++ suf) (pre.length : Int) = suf := by
  rw [pySliceFrom, pyIdx, if_neg (by omega)]
  simp only [Int.toNat_natCast, List.length_append]
  rw [min_eq_right (by omega), drop_length_append]

/-- The envelope of a well-formed framed object parses to its three
fields (the declared size need not match the body). -/
theorem parseObject_wellformed (t ds body : Bytes)
    (ht32 : 32 ∉ t) (ht0 : 0 ∉ t)
    (hne : ds ≠ []) (hd : ∀ c ∈ ds, 48 ≤ c ∧ c ≤ 57) :
    parseObject (t ++ 32 :: (ds ++ 0 :: body))
      = some (t, (digitsVal ds : Int), body) := by
  have h0ds : (0 : Nat) ∉ ds := fun hmem => by have := hd 0 hmem; omega
  have hfs : findByte 32 (t ++ 32 :: (ds ++ 0 :: body)) = some t.length := by
    rw [findByte_append_of_not_mem 32 t _ ht32, findByte_cons_self]
    simp
  have hf0 : findByte 0 (t ++ 32 :: (ds ++ 0 :: body))
      = some (t.length + (32 :: ds).length) := by
    rw [findByte_append_of_not_mem 0 t _ ht0]
    rw [show findByte 0 (32 :: (ds ++ 0 :: body))
        = (findByte 0 (ds ++ 0 :: body)).map (· + 1) from by simp [findByte]]
    rw [findByte_append_of_not_mem 0 ds _ h0ds, findByte_cons_self]
    simp only [Option.map_some, List.length_cons]
    exact congrArg some (by
      show 0 + ds.length + 1 + t.length = t.length + (ds.length + 1)
      omega)
  have hshape : t ++ 32 :: (ds ++ 0 :: body) = t ++ (32 :: ds) ++ 0 :: body := by
    simp
  rw [parseObject, pyFind, hfs, pyFind, hf0]
  have htype : pySlice (t ++ 32 :: (ds ++ 0 :: body)) 0 (t.length : Int) = t := by
    rw [show t ++ 32 :: (ds ++ 0 :: body) = t ++ (32 :: (ds ++ 0 :: body)) from rfl]
    exact pySlice_prefix t _
  have hsize : pySlice (t ++ 32 :: (ds ++ 0 :: body)) (t.length : Int)
      ((t.length + (32 :: ds).length : Nat) : Int) = 32 :: ds := by
    rw [hshape]
    exact pySlice_middle t (32 :: ds) (0 :: body)
  have hdata : pySliceFrom (t ++ 32 :: (ds ++ 0 :: body))
      ((t.length + (32 :: ds).length : Nat) + 1 : Int) = body := by
    rw [hshape, show ((t.length + (32 :: ds).length : Nat) : Int) + 1
        = (((t ++ 32 :: ds ++ [0]).length : Nat) : Int) from by push_cast; simp; ring]
    rw [show t ++ (32 :: ds) ++ 0 :: body = (t ++ 32 :: ds ++ [0]) ++ body from by simp]
    exact pySliceFrom_at _ body
  rw [htype, hsize, hdata, pyInt_space_digits ds hne hd]
  rfl

/-- C3, counterexample: on a stored object whose envelope declares
length 4 but whose body has 13 bytes, `read_object` with a differing
expected kind `commit` does not fail with the bad-length error — the
type check precedes the length check and raises the type mismatch. -/
theorem c3_badlength_counterexample :
    read_object
        ⟨[(bytesOfString "def456", bytesOfString "blob 4\x00I am a banana")], []⟩
        (bytesOfString "def456") (some (bytesOfString "commit"))
      ≠ Except.error (Err.badLength (bytesOfString "def456")) := by
  decide

/-- C3 (amended): for every stored object whose decompressed envelope
declares a decimal length different from the body's byte count,
`read_object` fails with the bad-length error when the expected kind is
absent or equals the envelope kind; a differing expected kind is
rejected first, with `TypeMismatch`. -/
theorem c3_badlength_amended (repo : Repository) (sha t ds body : Bytes)
    (obj_type : Option Bytes)
    (hlook : repo.lookupObject sha = some (t ++ 32 :: (ds ++ 0 :: body)))
    (ht32 : 32 ∉ t) (ht0 : 0 ∉ t)
    (hne : ds ≠ []) (hd : ∀ c ∈ ds, 48 ≤ c ∧ c ≤ 57)
    (hlen : digitsVal ds ≠ body.length)
    (hot : obj_type = none ∨ obj_type = some t) :
    read_object repo sha obj_type = .error (.badLength sha) := by
  have hint : ¬ ((digitsVal ds : Int) = (body.length : Int)) := by
    exact_mod_cast hlen
  rcases hot with rfl | rfl
  · simp only [read_object, hlook, parseObject_wellformed t ds body ht32 ht0 hne hd]
    rw [if_neg (by simp)]
    rw [if_pos hint]
  · simp only [read_object, hlook, parseObject_wellformed t ds body ht32 ht0 hne hd]
    rw [if_neg (by simp)]
    rw [if_pos hint]

/-- Witness for C3 (amended): envelope `blob 4` over a 13-byte body,
no expected kind. -/
theorem c3_badlength_witness :
    read_object
        ⟨[(bytesOfString "def456",
           bytesOfString "blob" ++ 32 :: (bytesOfString "4" ++ 0 :: bytesOfString "I am a banana"))], []⟩
        (bytesOfString "def456") none
      = Except.error (Err.badLength (bytesOfString "def456")) :=
  c3_badlength_amended _ (bytesOfString "def456") (bytesOfString "blob")
    (bytesOfString "4") (bytesOfString "I am a banana") none
    (by decide) (by decide) (by decide) (by decide) (by decide) (by decide)
    (Or.inl rfl)

/-- C9, counterexample: a whitespace-only name is nonempty, so it
passes the emptiness check, strips to the empty string, and falls
through to the no-candidates error `NotFound` (with the stripped name
as payload) — not to the missing-name `InvalidArgument` error. -/
theorem c9_trim_counterexample :
    resolve_object_name ⟨[], []⟩ (bytesOfString "   ") ≠ Except.error Err.noName := by
  decide

/-- C9 (amended): `resolve_object_name` checks for emptiness before
trimming: it fails with the missing-name error exactly when the given
name is empty; a whitespace-only name instead strips to empty and
fails with `NotFound`. -/
theorem c9_trim_amended (repo : Repository) (name : Bytes) :
    resolve_object_name repo name = Except.error Err.noName ↔ name = [] := by
  constructor
  · intro h
    by_contra hne
    rw [resolve_object_name, if_neg hne] at h
    simp only [] at h
    repeat' split at h
    all_goals exact absurd h (by simp)
  · intro h
    subst h
    rfl

theorem pyStrip_eq_self_of_not_ws (s : Bytes) (h : ∀ c ∈ s, isWS c = false) :
    pyStrip s = s := by
  rw [pyStrip, dropWhile_eq_self_of_not_ws s h,
    dropWhile_eq_self_of_not_ws s.reverse (fun c hc => h c (List.mem_reverse.mp hc)),
    List.reverse_reverse]

theorem pyStrip_hex (s : Bytes) (h : s.all isHexLower = true) : pyStrip s = s := by
  apply pyStrip_eq_self_of_not_ws
  intro c hc
  have := List.all_eq_true.mp h c hc
  simp only [isHexLower, Bool.or_eq_true, Bool.and_eq_true, decide_eq_true_eq] at this
  simp [isWS]
  omega

theorem pyLower_hex (s : Bytes) (h : s.all isHexLower = true) : pyLower s = s := by
  rw [pyLower]
  conv_rhs => rw [← List.map_id s]
  apply List.map_congr_left
  intro c hc
  have := List.all_eq_true.mp h c hc
  simp only [isHexLower, Bool.or_eq_true, Bool.and_eq_true, decide_eq_true_eq] at this
  rw [if_neg (by omega)]
  rfl

theorem prefix_iff_take_drop (nm h : Bytes) (hnm : 2 ≤ nm.length) :
    nm <+: h ↔ (h.take 2 = nm.take 2 ∧ nm.drop 2 <+: h.drop 2) := by
  constructor
  · rintro ⟨t, rfl⟩
    constructor
    · rw [List.take_append_of_le_length hnm]
    · rw [List.drop_append_of_le_length hnm]
      exact List.prefix_append _ _
  · rintro ⟨htake, hdrop⟩
    obtain ⟨t, ht⟩ := hdrop
    refine ⟨t, ?_⟩
    calc nm ++ t = nm.take 2 ++ (nm.drop 2 ++ t) := by
          rw [← List.append_assoc, List.take_append_drop]
      _ = h.take 2 ++ h.drop 2 := by rw [htake, ht]
      _ = h := List.take_append_drop 2 h

/-- The fan-out scan collects exactly the stored hashes that start
with the (length ≥ 2) name. -/
theorem candidates_eq_matches (objects : List (Bytes × Bytes)) (nm : Bytes)
    (hn : 2 ≤ nm.length) :
    (objects.filter (fun p =>
        p.1.take 2 == nm.take 2 && (nm.drop 2).isPrefixOf (p.1.drop 2))).map
        (fun p => nm.take 2 ++ p.1.drop 2)
      = (objects.map Prod.fst).filter (fun h => nm.isPrefixOf h) := by
  induction objects with
  | nil => rfl
  | cons p rest ih =>
    by_cases hc : nm <+: p.1
    · have hcond : (p.1.take 2 == nm.take 2 && (nm.drop 2).isPrefixOf (p.1.drop 2)) = true := by
        obtain ⟨ht, hd⟩ := (prefix_iff_take_drop nm p.1 hn).mp hc
        simp [ht, List.isPrefixOf_iff_prefix, hd]
      have hcand : nm.take 2 ++ p.1.drop 2 = p.1 := by
        have ht := ((prefix_iff_take_drop nm p.1 hn).mp hc).1
        rw [← ht, List.take_append_drop]
      simp only [List.map_cons, List.filter_cons]
      rw [if_pos hcond,
        if_pos (show (nm.isPrefixOf p.1) = true by simp [List.isPrefixOf_iff_prefix, hc])]
      rw [List.map_cons, hcand, ih]
    · have hcond : ¬ (p.1.take 2 == nm.take 2 && (nm.drop 2).isPrefixOf (p.1.drop 2)) = true := by
        intro hcontra
        simp only [Bool.and_eq_true, beq_iff_eq, List.isPrefixOf_iff_prefix] at hcontra
        exact hc ((prefix_iff_take_drop nm p.1 hn).mpr hcontra)
      simp only [List.map_cons, List.filter_cons]
      rw [if_neg hcond,
        if_neg (show ¬ (nm.isPrefixOf p.1) = true by
          simp [List.isPrefixOf_iff_prefix, hc]),
        ih]

theorem lookupObject_isSome_iff (repo : Repository) (sha : Bytes) :
    (repo.lookupObject sha).isSome ↔ sha ∈ repo.objects.map Prod.fst := by
  have hmap : ((repo.objects.find? (fun p => p.1 == sha)).map (·.2)).isSome
      = (repo.objects.find? (fun p => p.1 == sha)).isSome := by
    cases repo.objects.find? (fun p => p.1 == sha) <;> rfl
  rw [Repository.lookupObject, hmap, List.find?_isSome]
  constructor
  · rintro ⟨p, hp, hbeq⟩
    rw [beq_iff_eq] at hbeq
    exact hbeq ▸ List.mem_map_of_mem Prod.fst hp
  · intro hmem
    obtain ⟨p, hp, rfl⟩ := List.mem_map.mp hmem
    exact ⟨p, hp, beq_self_eq_true _⟩

theorem filter_eq_singleton (l : List Bytes) (a : Bytes) (p : Bytes → Bool)
    (hnd : l.Nodup) (ha : a ∈ l) (hp : ∀ x ∈ l, p x = true ↔ x = a) :
    l.filter p = [a] := by
  induction l with
  | nil => simp at ha
  | cons b rest ih =>
    rw [List.nodup_cons] at hnd
    rcases List.mem_cons.mp ha with rfl | hmem
    · rw [List.filter_cons_of_pos ((hp a (List.mem_cons_self a rest)).mpr rfl)]
      have hnil : rest.filter p = [] := List.filter_eq_nil_iff.mpr (by
        intro x hx hpx
        exact hnd.1 (((hp x (List.mem_cons_of_mem a hx)).mp hpx) ▸ hx))
      rw [hnil]
    · rw [List.filter_cons_of_neg, ih hnd.2 hmem
        (fun x hx => hp x (List.mem_cons_of_mem b hx))]
      intro hpb
      have := (hp b (List.mem_cons_self b rest)).mp hpb
      subst this
      exact hnd.1 hmem

/-- C4: for every lowercase-hex name of length 4 to 40 (over a store
of 40-character hashes with distinct names), `resolve_object_name`
fails with `NotFound` when no stored hash starts with the name,
returns the unique full hash when exactly one does, and fails with
`Ambiguous` carrying exactly the matching hashes when two or more
do. -/
theorem c4_resolve_prefix_cases (repo : Repository) (name : Bytes)
    (hhex : name.all isHexLower = true) (hlen4 : 4 ≤ name.length)
    (hlen40 : name.length ≤ 40)
    (h40 : ∀ p ∈ repo.objects, (Prod.fst p).length = 40)
    (hnd : (repo.objects.map Prod.fst).Nodup) :
    ((repo.objects.map Prod.fst).filter (fun x => name.isPrefixOf x) = [] →
        resolve_object_name repo name = .error (.notFound name)) ∧
    (∀ h, (repo.objects.map Prod.fst).filter (fun x => name.isPrefixOf x) = [h] →
        resolve_object_name repo name = .ok h) ∧
    (2 ≤ ((repo.objects.map Prod.fst).filter (fun x => name.isPrefixOf x)).length →
        resolve_object_name repo name = .error (.ambiguous name
          ((repo.objects.map Prod.fst).filter (fun x => name.isPrefixOf x)))) := by
  have hne : name ≠ [] := by
    intro h
    rw [h] at hlen4
    simp at hlen4
  have hnm : pyLower (pyStrip name) = name := by
    rw [pyStrip_hex _ hhex, pyLower_hex _ hhex]
  have hshort : isShortHash name = true := by
    simp only [isShortHash, Bool.and_eq_true, decide_eq_true_eq]
    exact ⟨⟨hlen4, hlen40⟩, hhex⟩
  set M := (repo.objects.map Prod.fst).filter (fun x => name.isPrefixOf x) with hM
  have hbody : resolve_object_name repo name =
      (if (isFullHash name && (repo.lookupObject name).isSome) = true then .ok name
       else if (isShortHash name &&
           !(repo.objects.any (fun p => p.1.take 2 == name.take 2))) = true then
         .error (.notFound name)
       else
         if M.length = 1 then .ok (M.headD [])
         else if M = [] then .error (.notFound name)
         else .error (.ambiguous name M)) := by
    rw [resolve_object_name, if_neg hne]
    simp only [hnm, hshort, if_true]
    rw [candidates_eq_matches repo.objects name (by omega), ← hM]
  by_cases hc1 : (isFullHash name && (repo.lookupObject name).isSome) = true
  · have hc1' := hc1
    simp only [Bool.and_eq_true] at hc1'
    have hname40 : name.length = 40 := by
      have := hc1'.1
      simp only [isFullHash, Bool.and_eq_true, decide_eq_true_eq] at this
      exact this.1
    have hmem : name ∈ repo.objects.map Prod.fst :=
      (lookupObject_isSome_iff repo name).mp (by
        cases hly : (repo.lookupObject name).isSome
        · rw [hly] at hc1'; exact absurd hc1'.2 (by simp)
        · rfl)
    have hMval : M = [name] := by
      rw [hM]
      apply filter_eq_singleton _ name _ hnd hmem
      intro x hx
      constructor
      · intro hpx
        obtain ⟨p, hp, rfl⟩ := List.mem_map.mp hx
        have hxlen : (Prod.fst p).length = 40 := h40 p hp
        exact (List.IsPrefix.eq_of_length (List.isPrefixOf_iff_prefix.mp hpx)
          (by omega)).symm
      · rintro rfl
        simp [List.isPrefixOf_iff_prefix]
    rw [hbody, if_pos hc1]
    refine ⟨?_, ?_, ?_⟩
    · intro h0
      rw [hMval] at h0
      exact absurd h0 (by simp)
    · intro h hh
      rw [hMval] at hh
      injection hh with h1 _
      rw [h1]
    · intro h2
      rw [hMval] at h2
      simp at h2
  · rw [hbody, if_neg hc1]
    by_cases hc2 : (isShortHash name &&
        !(repo.objects.any (fun p => p.1.take 2 == name.take 2))) = true
    · have hany : repo.objects.any (fun p => p.1.take 2 == name.take 2) = false := by
        have hc2' := hc2
        simp only [Bool.and_eq_true] at hc2'
        have := hc2'.2
        cases ha : repo.objects.any (fun p => p.1.take 2 == name.take 2)
        · rfl
        · rw [ha] at this; exact absurd this (by simp)
      have hM0 : M = [] := by
        rw [hM]
        apply List.filter_eq_nil_iff.mpr
        intro x hx hpx
        obtain ⟨p, hp, rfl⟩ := List.mem_map.mp hx
        have htake := ((prefix_iff_take_drop name _ (by omega)).mp
          (List.isPrefixOf_iff_prefix.mp hpx)).1
        have : repo.objects.any (fun q => q.1.take 2 == name.take 2) = true :=
          List.any_eq_true.mpr ⟨p, hp, by simp [htake]⟩
        rw [hany] at this
        exact absurd this (by simp)
      rw [if_pos hc2]
      refine ⟨fun _ => rfl, ?_, ?_⟩
      · intro h hh
        rw [hM0] at hh
        exact absurd hh (by simp)
      · intro h2
        rw [hM0] at h2
        simp at h2
    · rw [if_neg hc2]
      refine ⟨?_, ?_, ?_⟩
      · intro h0
        rw [h0]
        rw [if_neg (by simp), if_pos (by rfl)]
      · intro h hh
        rw [hh]
        rw [if_pos (by simp)]
        rfl
      · intro h2
        rw [if_neg (by omega), if_neg (by
          intro hnil
          rw [hnil] at h2
          simp at h2)]

/-- Witness for C4, at the two-object ambiguous-prefix scenario of the
repository's tests. -/
theorem c4_resolve_prefix_witness :
    resolve_object_name
        ⟨[(bytesOfString "96e86353078f58a63e9d0dbd5beadc23e76a918f", []),
          (bytesOfString "96e86b5662a3620b3ac4751251eec239d71dd120", [])], []⟩
        (bytesOfString "96e86")
      = Except.error (Err.ambiguous (bytesOfString "96e86")
          ((List.map Prod.fst
            ([(bytesOfString "96e86353078f58a63e9d0dbd5beadc23e76a918f", []),
              (bytesOfString "96e86b5662a3620b3ac4751251eec239d71dd120", [])]
              : List (Bytes × Bytes))).filter
            (fun x => (bytesOfString "96e86").isPrefixOf x))) :=
  (c4_resolve_prefix_cases
      ⟨[(bytesOfString "96e86353078f58a63e9d0dbd5beadc23e76a918f", []),
        (bytesOfString "96e86b5662a3620b3ac4751251eec239d71dd120", [])], []⟩
      (bytesOfString "96e86")
      (by decide) (by decide) (by decide) (by decide) (by decide)).2.2 (by decide)

/-- C7: `create_ref` writes the bare 40-hex hash with no trailing LF
to `refs/heads/master`, and `resolve_ref` on the file just written
then returns only the first 39 characters: `readline()[:-1]`
unconditionally drops the final character, so the stored hash does not
round-trip (the repository's own tests expect the full hash back). -/
theorem c7_create_resolve_drops_last_char :
    create_ref ⟨[], []⟩ (bytesOfString "heads/master") none
        (some (bytesOfString "0beec7b5ea3f0fdbc95d0dd47f3c5bc275da8a33")) false
      = Except.ok ⟨[], [(bytesOfString "refs/heads/master",
          bytesOfString "0beec7b5ea3f0fdbc95d0dd47f3c5bc275da8a33")]⟩
    ∧ resolve_ref 8
        ⟨[], [(bytesOfString "refs/heads/master",
          bytesOfString "0beec7b5ea3f0fdbc95d0dd47f3c5bc275da8a33")]⟩
        (bytesOfString "refs/heads/master")
      = some (Except.ok (bytesOfString "0beec7b5ea3f0fdbc95d0dd47f3c5bc275da8a3"))
    ∧ bytesOfString "0beec7b5ea3f0fdbc95d0dd47f3c5bc275da8a3"
      ≠ bytesOfString "0beec7b5ea3f0fdbc95d0dd47f3c5bc275da8a33" := by
  refine ⟨by decide, by decide, by decide⟩

/-- C10: whenever the name equals `HEAD` case-insensitively,
`find_object` returns the result of `resolve_ref(repo, "HEAD")`
directly, for every expected type and every `follow` flag: no object
is loaded, no expected-kind validation happens, and no type-following
is applied. -/
theorem c10_head_shortcircuit (fuel : Nat) (repo : Repository) (name : Bytes)
    (obj_type : Option Bytes) (follow : Bool)
    (h : pyUpper name = bytesOfString "HEAD") :
    find_object fuel repo name obj_type follow
      = (resolve_ref fuel repo (bytesOfString "HEAD")).map (Except.map some) := by
  rw [find_object, if_pos (by simp [h])]

/-- Witness for C10: the lowercase name `head` with a differing
expected type and `follow = false` still returns the `resolve_ref`
result on a concrete repository. -/
theorem c10_head_shortcircuit_witness :
    find_object 4
        ⟨[], [(bytesOfString "HEAD", bytesOfString "ref: refs/heads/master"),
              (bytesOfString "refs/heads/master",
               bytesOfString "0beec7b5ea3f0fdbc95d0dd47f3c5bc275da8a33")]⟩
        (bytesOfString "head") (some (bytesOfString "tree")) false
      = (resolve_ref 4
          ⟨[], [(bytesOfString "HEAD", bytesOfString "ref: refs/heads/master"),
                (bytesOfString "refs/heads/master",
                 bytesOfString "0beec7b5ea3f0fdbc95d0dd47f3c5bc275da8a33")]⟩
          (bytesOfString "HEAD")).map (Except.map some) :=
  c10_head_shortcircuit 4 _ (bytesOfString "head") (some (bytesOfString "tree")) false
    (by decide)

/-- A stopping object yields a loop result in one iteration. -/
theorem find_object_loop_term (repo : Repository) (ot sha : Bytes) (n : Nat)
    (h : follow_succ repo ot sha = none) :
    ∃ r, find_object_loop repo ot true (n + 1) sha = some r := by
  cases hr : read_object repo sha none with
  | error e => exact ⟨.error e, by simp [find_object_loop, hr]⟩
  | ok obj =>
    simp only [follow_succ, hr] at h
    by_cases h1 : (obj.type_ == ot) = true
    · exact ⟨.ok (some sha), by simp [find_object_loop, hr, h1]⟩
    · rw [if_neg h1] at h
      by_cases h2 : (obj.type_ == bytesOfString "tag") = true
      · rw [if_pos h2] at h
        exact ⟨.error (.headerMissing (bytesOfString "object")),
          by simp [find_object_loop, hr, h1, h2, h]⟩
      · rw [if_neg h2] at h
        by_cases h3 : (obj.type_ == bytesOfString "commit"
            && ot == bytesOfString "tree") = true
        · rw [if_pos h3] at h
          exact ⟨.error (.headerMissing (bytesOfString "tree")),
            by simp [find_object_loop, hr, h1, h2, h3, h]⟩
        · exact ⟨.ok none, by simp [find_object_loop, hr, h1, h2, h3]⟩

/-- A continuing object makes one loop iteration step to its
successor. -/
theorem find_object_loop_follow (repo : Repository) (ot sha s' : Bytes) (n : Nat)
    (h : follow_succ repo ot sha = some s') :
    find_object_loop repo ot true (n + 1) sha
      = find_object_loop repo ot true n s' := by
  cases hr : read_object repo sha none with
  | error e =>
    simp only [follow_succ, hr] at h
    exact absurd h (by simp)
  | ok obj =>
    simp only [follow_succ, hr] at h
    by_cases h1 : (obj.type_ == ot) = true
    · rw [if_pos h1] at h
      exact absurd h (by simp)
    · rw [if_neg h1] at h
      by_cases h2 : (obj.type_ == bytesOfString "tag") = true
      · rw [if_pos h2] at h
        simp [find_object_loop, hr, h1, h2, h]
      · rw [if_neg h2] at h
        by_cases h3 : (obj.type_ == bytesOfString "commit"
            && ot == bytesOfString "tree") = true
        · rw [if_pos h3] at h
          simp [find_object_loop, hr, h1, h2, h3, h]
        · rw [if_neg h3] at h
          exact absurd h (by simp)

/-- Fuel equal to the stopping bound of the successor chain suffices
for the loop to produce a result. -/
theorem find_object_loop_terminates (repo : Repository) (ot : Bytes) :
    ∀ (k : Nat) (sha : Bytes), succ_iter repo ot k sha = none →
      ∃ r, find_object_loop repo ot true k sha = some r := by
  intro k
  induction k with
  | zero =>
    intro sha h
    simp [succ_iter] at h
  | succ n ih =>
    intro sha h
    cases hs : follow_succ repo ot sha with
    | none => exact find_object_loop_term repo ot sha n hs
    | some s' =>
      simp only [succ_iter, hs] at h
      obtain ⟨r, hr⟩ := ih s' h
      exact ⟨r, by rw [find_object_loop_follow repo ot sha s' n hs, hr]⟩

/-- C5, counterexample: on a repository whose tag object's `object`
header forms a cycle (a tag naming its own hash), `find_object` with
an expected kind `commit` and `follow = true` never terminates — the
`while True` loop has no depth cap and revisits the same hash
forever. -/
theorem c5_termination_counterexample :
    FindObjectDiverges cycTagRepo cycTagName (some (bytesOfString "commit")) true := by
  have hsucc : follow_succ cycTagRepo (bytesOfString "commit") cycTagName
      = some cycTagName := by decide
  have hloop : ∀ n,
      find_object_loop cycTagRepo (bytesOfString "commit") true n cycTagName = none := by
    intro n
    induction n with
    | zero => rfl
    | succ m ih =>
      rw [find_object_loop_follow _ _ _ _ m hsucc, ih]
  intro fuel
  rw [find_object, if_neg (by decide)]
  simp only [show resolve_object_name cycTagRepo cycTagName = .ok cycTagName from by decide]
  exact hloop fuel

/-- C5 (amended): `find_object(repo, name, obj_type, follow = true)`
terminates whenever the follow-successor chain from the resolved
object stops within `k` steps (for an acyclic tag chain of length `L`,
`k = L + 1` works); the loop then needs at most `k` iterations.  On a
cyclic tag graph the chain never stops and the loop diverges (see the
counterexample). -/
theorem c5_termination_amended (repo : Repository) (name sha ot : Bytes) (k : Nat)
    (hhead : ¬ (pyUpper name == bytesOfString "HEAD") = true)
    (hres : resolve_object_name repo name = .ok sha)
    (hterm : succ_iter repo ot k sha = none) :
    ∃ r, find_object k repo name (some ot) true = some r := by
  obtain ⟨r, hr⟩ := find_object_loop_terminates repo ot k sha hterm
  refine ⟨r, ?_⟩
  rw [find_object, if_neg hhead]
  simp only [hres]
  exact hr

/-- Witness for C5 (amended): a tag pointing at a stored commit, with
expected kind `commit`; the chain stops within two steps and fuel 2
suffices. -/
theorem c5_termination_witness :
    ∃ r, find_object 2
        ⟨[(bytesOfString "bbbbbbbbbbbbbbbbbbbbbbbbbbbbbbbbbbbbbbbb",
           bytesOfString "tag 50\x00object cccccccccccccccccccccccccccccccccccccccc\n\nx"),
          (bytesOfString "cccccccccccccccccccccccccccccccccccccccc",
           bytesOfString "commit 12\x00tree dddd\n\nm")], []⟩
        (bytesOfString "bbbbbbbbbbbbbbbbbbbbbbbbbbbbbbbbbbbbbbbb")
        (some (bytesOfString "commit")) true = some r :=
  c5_termination_amended
    ⟨[(bytesOfString "bbbbbbbbbbbbbbbbbbbbbbbbbbbbbbbbbbbbbbbb",
       bytesOfString "tag 50\x00object cccccccccccccccccccccccccccccccccccccccc\n\nx"),
      (bytesOfString "cccccccccccccccccccccccccccccccccccccccc",
       bytesOfString "commit 12\x00tree dddd\n\nm")], []⟩
    (bytesOfString "bbbbbbbbbbbbbbbbbbbbbbbbbbbbbbbbbbbbbbbb")
    (bytesOfString "bbbbbbbbbbbbbbbbbbbbbbbbbbbbbbbbbbbbbbbb")
    (bytesOfString "commit") 2 (by decide) (by decide) (by decide)

theorem hexVal_hexDigit (n : Nat) (h : n < 16) : hexVal (hexDigit n) = n := by
  rw [hexDigit]
  by_cases h10 : n < 10
  · rw [if_pos h10, hexVal, if_pos (by omega)]
    omega
  · rw [if_neg h10, hexVal, if_neg (by omega)]
    omega

theorem hexDecode_hexEncode (bs : Bytes) (h : ∀ b ∈ bs, b < 256) :
    hexDecode (hexEncode bs) = bs := by
  induction bs with
  | nil => rfl
  | cons b rest ih =>
    have hb := h b (List.mem_cons_self b rest)
    have hrest := ih (fun x hx => h x (List.mem_cons_of_mem b hx))
    show hexDecode (hexDigit (b / 16) :: hexDigit (b % 16) :: hexEncode rest)
      = b :: rest
    rw [hexDecode, hrest, hexVal_hexDigit (b / 16) (by omega),
      hexVal_hexDigit (b % 16) (by omega)]
    rw [show b / 16 * 16 + b % 16 = b from by omega]

theorem renderTreeBody_length_ge (entries : List (Bytes × Bytes × Bytes)) :
    entries.length ≤ (renderTreeBody entries).length := by
  induction entries with
  | nil => simp [renderTreeBody]
  | cons e rest ih =>
    obtain ⟨m, p, h⟩ := e
    simp only [renderTreeBody, List.length_append, List.length_cons]
    simp at ih ⊢
    omega

/-- Parsing a rendered well-formed tree body yields its entries, with
the raw hashes hex-encoded, in order. -/
theorem parse_tree_fuel_render (entries : List (Bytes × Bytes × Bytes)) :
    ∀ fuel, (∀ e ∈ entries, GoodTreeEntry e) → entries.length < fuel →
      parse_tree_fuel fuel (renderTreeBody entries)
        = entries.map (fun e => ⟨e.1, e.2.1, hexEncode e.2.2⟩) := by
  induction entries with
  | nil =>
    intro fuel _ hf
    cases fuel with
    | zero => omega
    | succ f => rfl
  | cons e rest ih =>
    intro fuel hg hf
    obtain ⟨m, p, h⟩ := e
    cases fuel with
    | zero => omega
    | succ f =>
      obtain ⟨hm, hp, hlen, hlt⟩ := hg (m, p, h) (by simp)
      have hf32 : findByte 32 (m ++ 32 :: (p ++ 0 :: (h ++ renderTreeBody rest)))
          = some m.length := by
        rw [findByte_append_of_not_mem 32 m _ hm, findByte_cons_self]
        simp
      have hdrop1 : (m ++ 32 :: (p ++ 0 :: (h ++ renderTreeBody rest))).drop (m.length + 1)
          = p ++ 0 :: (h ++ renderTreeBody rest) := by
        rw [show m ++ 32 :: (p ++ 0 :: (h ++ renderTreeBody rest))
            = (m ++ [32]) ++ (p ++ 0 :: (h ++ renderTreeBody rest)) from by simp,
          show m.length + 1 = (m ++ [32]).length from by simp]
        exact drop_length_append _ _
      have hf0 : findByte 0 (p ++ 0 :: (h ++ renderTreeBody rest))
          = some p.length := by
        rw [findByte_append_of_not_mem 0 p _ hp, findByte_cons_self]
        simp
      have hdrop2 : (p ++ 0 :: (h ++ renderTreeBody rest)).drop (p.length + 1)
          = h ++ renderTreeBody rest := by
        rw [show p ++ 0 :: (h ++ renderTreeBody rest)
            = (p ++ [0]) ++ (h ++ renderTreeBody rest) from by simp,
          show p.length + 1 = (p ++ [0]).length from by simp]
        exact drop_length_append _ _
      have htake20 : (h ++ renderTreeBody rest).take 20 = h := by
        rw [← hlen, take_length_append]
      have hdrop20 : (h ++ renderTreeBody rest).drop 20 = renderTreeBody rest := by
        rw [← hlen, drop_length_append]
      rw [renderTreeBody, parse_tree_fuel]
      simp only [hf32]
      rw [take_length_append, hdrop1]
      simp only [hf0]
      rw [take_length_append, hdrop2, htake20, hdrop20]
      rw [ih f (fun x hx => hg x (List.mem_cons_of_mem _ hx))
        (by simp only [List.length_cons] at hf; omega)]
      rfl

/-- C8: for every well-formed tree body (a concatenation of entries
`mode SP path NUL hash-raw-20`), parsing into tree entries and
emitting them in the same order reproduces the body byte-for-byte. -/
theorem c8_tree_roundtrip (entries : List (Bytes × Bytes × Bytes))
    (hg : ∀ e ∈ entries, GoodTreeEntry e) :
    emit_tree (parse_tree (renderTreeBody entries)) = renderTreeBody entries := by
  rw [parse_tree, parse_tree_fuel_render entries _ hg (by
    have := renderTreeBody_length_ge entries
    omega)]
  induction entries with
  | nil => rfl
  | cons e rest ih =>
    obtain ⟨m, p, h⟩ := e
    obtain ⟨_, _, _, hlt⟩ := hg (m, p, h) (by simp)
    rw [List.map_cons, emit_tree, List.map_cons]
    simp only [List.foldr_cons]
    rw [hexDecode_hexEncode h hlt]
    rw [renderTreeBody]
    have ih' := ih (fun x hx => hg x (List.mem_cons_of_mem _ hx))
    rw [emit_tree] at ih'
    rw [ih']
    simp

/-- Witness for C8: a two-entry tree body (a regular file and a
subdirectory). -/
theorem c8_tree_roundtrip_witness :
    emit_tree (parse_tree (renderTreeBody
        [(bytesOfString "100644", bytesOfString "a.txt", List.replicate 20 7),
         (bytesOfString "40000", bytesOfString "sub", List.replicate 20 255)]))
      = renderTreeBody
        [(bytesOfString "100644", bytesOfString "a.txt", List.replicate 20 7),
         (bytesOfString "40000", bytesOfString "sub", List.replicate 20 255)] :=
  c8_tree_roundtrip
    [(bytesOfString "100644", bytesOfString "a.txt", List.replicate 20 7),
     (bytesOfString "40000", bytesOfString "sub", List.replicate 20 255)]
    (by decide)

/-- C6: on a repository holding a well-formed one-entry tree object
and a nonexistent destination, `checkout` succeeds — but the resulting
filesystem contains only the newly created empty destination
directory: no file or subdirectory from the tree is materialized,
because the source never invokes its recursive walk.  (The claim that
the destination then contains the tree's entries fails: the tree's
blob entry `a` never becomes a file.) -/
theorem c6_checkout_materializes_nothing :
    checkout
        ⟨[(bytesOfString "eeeeeeeeeeeeeeeeeeeeeeeeeeeeeeeeeeeeeeee",
           bytesOfString "tree 29\x00100644 a\x00" ++ List.replicate 20 0)], []⟩
        [] (bytesOfString "eeeeeeeeeeeeeeeeeeeeeeeeeeeeeeeeeeeeeeee")
        (bytesOfString "dest")
      = Except.ok [(bytesOfString "dest", FSEntry.dir)] := by
  decide

end Gitsy

